import Mathlib

/-!
Verification of the target-discovery pipeline of the `bzl` tool:
the query-output parser (`bazel.py parse_query_output`), the disk cache
(`load_cache` / `save_cache` / `bust_cache`), the query command builders
(`query_local`, `SSHConfig.build_query_cmd`), and the fuzzy-filtered
selector widget (`widgets/fuzzy_list.py`).

Strings are modelled as Lean `String` (a list of Unicode scalar values),
matching Python `str` as a sequence of code points.  Python's `sorted` on
strings compares code-point-lexicographically, which is exactly the
`LinearOrder String` order; `sorted` is modelled by `List.insertionSort`,
legitimate because a sorted permutation of a multiset is unique under an
antisymmetric total order.
-/

namespace Bzl

/-! ### Python character classes

`pyIsSpace` is the set of code points for which Python `str.isspace()`
holds (the set used by `str.strip()` and no-argument `str.split()`);
`isLineBreakChar` is the set of line boundaries used by
`str.splitlines()` (a strict subset: it excludes tab, space and the
non-breaking/figure spaces). -/

def pyIsSpace (c : Char) : Bool :=
  let v := c.toNat
  (9 ≤ v && v ≤ 13) || v = 32 || (28 ≤ v && v ≤ 31) || v = 133 || v = 160 ||
  v = 0x1680 || (0x2000 ≤ v && v ≤ 0x200a) || v = 0x2028 || v = 0x2029 ||
  v = 0x202f || v = 0x205f || v = 0x3000

def isLineBreakChar (c : Char) : Bool :=
  let v := c.toNat
  v = 10 || v = 13 || v = 11 || v = 12 || v = 28 || v = 29 || v = 30 ||
  v = 133 || v = 0x2028 || v = 0x2029

/-- Python `str.splitlines()`: split at every line-boundary character,
treating `"\r\n"` as a single boundary; a trailing boundary produces no
trailing empty line. -/
def splitlinesAux : List Char → List Char → List (List Char)
  | [], acc => if acc.isEmpty then [] else [acc.reverse]
  | '\r' :: '\n' :: rest, acc => acc.reverse :: splitlinesAux rest []
  | c :: rest, acc =>
      if isLineBreakChar c then acc.reverse :: splitlinesAux rest []
      else splitlinesAux rest (c :: acc)

def splitlines (l : List Char) : List (List Char) := splitlinesAux l []

/-- Python `str.strip()`: drop whitespace from both ends. -/
def pyStrip (l : List Char) : List Char :=
  ((l.dropWhile pyIsSpace).reverse.dropWhile pyIsSpace).reverse

/-- Python `line.startswith("//")`. -/
def startsWithSlashes (l : List Char) : Bool :=
  match l with
  | c1 :: c2 :: _ => c1 = '/' && c2 = '/'
  | _ => false

/-- Python `":" in line`. -/
def hasColon (l : List Char) : Bool := l.any (fun c => c = ':')

/-- Python `line.rsplit(":", 1)`: split at the LAST occurrence of `':'`;
`none` when the line has no `':'` (the Python code only calls it after
checking `":" in line`). -/
def rsplitColon : List Char → Option (List Char × List Char)
  | [] => none
  | c :: rest =>
      match rsplitColon rest with
      | some (m, r) => some (c :: m, r)
      | none => if c = ':' then some ([], rest) else none

/-! ### The parser (`bazel.py`, `parse_query_output`) -/

/-- The Python loop's two `continue` guards (`if not line or not
line.startswith("//"): continue` and `if ":" not in line: continue`)
combined: a stripped line is significant when it is non-empty, starts
with `"//"` and contains `':'`. -/
def isSignificant (s : List Char) : Bool :=
  !s.isEmpty && startsWithSlashes s && hasColon s

/-- The loop body of `parse_query_output`: keep a line only if, after
stripping, it is significant; split each kept line at its last `':'`
into a `(module, rule)` pair.  (The `none` branch is unreachable: a
significant line contains `':'`.) -/
def parse_lines : List (List Char) → List (String × String)
  | [] => []
  | l :: rest =>
      if isSignificant (pyStrip l) then
        match rsplitColon (pyStrip l) with
        | some (m, r) => (String.mk m, String.mk r) :: parse_lines rest
        | none => parse_lines rest
      else parse_lines rest

/-- The `(module, rule)` pairs extracted from the raw query output. -/
def parsedPairs (output : String) : List (String × String) :=
  parse_lines (splitlines output.data)

/-- `targets[module].append(rule)` on a `defaultdict(list)` modelled as an
insertion-ordered association list. -/
def addTarget : List (String × List String) → String → String → List (String × List String)
  | [], m, r => [(m, [r])]
  | (k, v) :: rest, m, r =>
      if k = m then (k, v ++ [r]) :: rest
      else (k, v) :: addTarget rest m r

/-- The accumulation loop of `parse_query_output`. -/
def accumulate (ps : List (String × String)) : List (String × List String) :=
  ps.foldl (fun t p => addTarget t p.1 p.2) []

/-- Code-point lexicographic comparison of character lists: exactly how
Python `<=` compares two `str` values. -/
def charListLeb : List Char → List Char → Bool
  | [], _ => true
  | _ :: _, [] => false
  | a :: as, b :: bs => if a < b then true else if a = b then charListLeb as bs else false

/-- Python string order `a <= b` (code-point lexicographic). -/
def strLE (a b : String) : Prop := charListLeb a.data b.data = true

instance : DecidableRel strLE := fun a b => inferInstanceAs (Decidable (_ = true))

theorem charListLeb_total : ∀ x y : List Char, charListLeb x y = true ∨ charListLeb y x = true
  | [], _ => Or.inl rfl
  | _ :: _, [] => Or.inr rfl
  | a :: as, b :: bs => by
      rcases lt_trichotomy a b with h | h | h
      · left; simp [charListLeb, h]
      · subst h
        rcases charListLeb_total as bs with ih | ih
        · left; simp [charListLeb, ih]
        · right; simp [charListLeb, ih]
      · right; simp [charListLeb, h]

theorem charListLeb_trans : ∀ x y z : List Char,
    charListLeb x y = true → charListLeb y z = true → charListLeb x z = true
  | [], _, _, _, _ => rfl
  | _ :: _, [], _, h, _ => by simp [charListLeb] at h
  | _ :: _, _ :: _, [], _, h => by simp [charListLeb] at h
  | a :: as, b :: bs, c :: cs, h₁, h₂ => by
      simp only [charListLeb] at h₁ h₂ ⊢
      by_cases hab : a < b
      · by_cases hbc : b < c
        · simp [lt_trans hab hbc]
        · by_cases hbc' : b = c
          · subst hbc'; simp [hab]
          · simp [hbc, hbc'] at h₂
      · by_cases hab' : a = b
        · subst hab'
          simp only [hab, if_false, if_pos rfl] at h₁
          by_cases hbc : a < c
          · simp [hbc]
          · by_cases hbc' : a = c
            · subst hbc'
              simp only [hbc, if_false, if_pos rfl] at h₂ ⊢
              exact charListLeb_trans as bs cs h₁ h₂
            · simp [hbc, hbc'] at h₂
        · simp [hab, hab'] at h₁

theorem charListLeb_antisymm : ∀ x y : List Char,
    charListLeb x y = true → charListLeb y x = true → x = y
  | [], [], _, _ => rfl
  | [], _ :: _, _, h => by simp [charListLeb] at h
  | _ :: _, [], h, _ => by simp [charListLeb] at h
  | a :: as, b :: bs, h₁, h₂ => by
      simp only [charListLeb] at h₁ h₂
      by_cases hab : a < b
      · simp [asymm hab, (ne_of_lt hab).symm] at h₂
      · by_cases hab' : a = b
        · subst hab'
          simp only [hab, if_false, if_pos rfl] at h₁ h₂
          rw [charListLeb_antisymm as bs h₁ h₂]
        · simp [hab, hab'] at h₁

instance : IsTotal String strLE := ⟨fun a b => charListLeb_total a.data b.data⟩

instance : IsTrans String strLE := ⟨fun a b c => charListLeb_trans a.data b.data c.data⟩

instance : IsAntisymm String strLE :=
  ⟨fun a b h h' => by
    cases a; cases b
    exact congrArg String.mk (charListLeb_antisymm _ _ h h')⟩

/-- Key-ordering on `(module, rules)` pairs.  Python sorts `dict.items()`
by tuple comparison; since dict keys are distinct this is comparison on
the key alone. -/
def keyLE (p q : String × List String) : Prop := strLE p.1 q.1

instance : DecidableRel keyLE := fun p q => inferInstanceAs (Decidable (strLE p.1 q.1))

instance : IsTotal (String × List String) keyLE := ⟨fun a b => total_of strLE a.1 b.1⟩

instance : IsTrans (String × List String) keyLE :=
  ⟨fun _ _ _ h h' => trans_of strLE h h'⟩

/-- Python `sorted` on strings (code-point lexicographic). -/
def sortStrings (l : List String) : List String := l.insertionSort strLE

/-- `parse_query_output` (bazel.py lines 160-178): accumulate
`(module, rule)` pairs from significant lines, then emit
`{module: sorted(rules) for module, rules in sorted(targets.items())}`. -/
def parse_query_output (output : String) : List (String × List String) :=
  ((accumulate (parsedPairs output)).insertionSort keyLE).map
    (fun p => (p.1, sortStrings p.2))

/-! ### Spec-level parser

`parseSpec` is written from the specification's words: group the kept
lines' last-colon splits by namespace, emit namespaces sorted lexically,
each namespace's items sorted lexically. -/

/-- The items accumulated for one namespace, in line order. -/
def rulesFor (ps : List (String × String)) (m : String) : List String :=
  ps.filterMap (fun p => if p.1 = m then some p.2 else none)

/-- Specification-side description of the parse result: the namespaces of
the kept lines, sorted lexically without repetition, each mapped to the
lexically sorted list of its accumulated items. -/
def parseSpec (output : String) : List (String × List String) :=
  (sortStrings ((parsedPairs output).map Prod.fst).dedup).map
    (fun m => (m, sortStrings (rulesFor (parsedPairs output) m)))

/-! ### Association-list lemmas for the accumulation loop -/

/-- Lookup in the association list (`targets[module]`, `[]` when absent). -/
def lookupT : List (String × List String) → String → List String
  | [], _ => []
  | (k, v) :: rest, m => if k = m then v else lookupT rest m

/-- The keys of the association list, in insertion order. -/
def keysOf (t : List (String × List String)) : List String := t.map Prod.fst

theorem lookupT_addTarget (t : List (String × List String)) (m r m') :
    lookupT (addTarget t m r) m' =
      if m' = m then lookupT t m' ++ [r] else lookupT t m' := by
  induction t with
  | nil =>
      by_cases h : m' = m
      · subst h; simp [addTarget, lookupT]
      · have h' : ¬ m = m' := fun he => h he.symm
        simp [addTarget, lookupT, h, h']
  | cons hd rest ih =>
      obtain ⟨k, v⟩ := hd
      by_cases hkm : k = m
      · subst hkm
        by_cases hk' : k = m'
        · subst hk'; simp [addTarget, lookupT]
        · have h2 : ¬ m' = k := fun he => hk' he.symm
          simp [addTarget, lookupT, hk', h2]
      · by_cases hk' : k = m'
        · subst hk'
          simp [addTarget, hkm, lookupT]
        · simp [addTarget, hkm, lookupT, hk', ih]

theorem keysOf_addTarget (t : List (String × List String)) (m r) :
    keysOf (addTarget t m r) =
      if m ∈ keysOf t then keysOf t else keysOf t ++ [m] := by
  induction t with
  | nil => simp [addTarget, keysOf]
  | cons hd rest ih =>
      obtain ⟨k, v⟩ := hd
      by_cases hkm : k = m
      · subst hkm; simp [addTarget, keysOf]
      · have hmk : ¬ m = k := fun h => hkm h.symm
        simp only [addTarget, if_neg hkm, keysOf, List.map_cons] at ih ⊢
        rw [ih]
        by_cases hmem : m ∈ List.map Prod.fst rest
        · simp [hmem, hmk]
        · simp [hmem, hmk]

theorem nodup_keysOf_addTarget {t : List (String × List String)} (m r)
    (h : (keysOf t).Nodup) : (keysOf (addTarget t m r)).Nodup := by
  rw [keysOf_addTarget]
  by_cases hmem : m ∈ keysOf t
  · simpa [hmem] using h
  · simp [hmem, List.nodup_append, h]

theorem rulesFor_cons (p : String × String) (ps : List (String × String)) (m : String) :
    rulesFor (p :: ps) m =
      if p.1 = m then p.2 :: rulesFor ps m else rulesFor ps m := by
  by_cases h : p.1 = m <;> simp [rulesFor, List.filterMap_cons, h]

theorem lookupT_foldl (ps : List (String × String)) :
    ∀ (t : List (String × List String)) (m : String),
      lookupT (ps.foldl (fun t p => addTarget t p.1 p.2) t) m =
        lookupT t m ++ rulesFor ps m := by
  induction ps with
  | nil => intro t m; simp [rulesFor]
  | cons p ps ih =>
      intro t m
      simp only [List.foldl_cons]
      rw [ih, lookupT_addTarget, rulesFor_cons]
      by_cases h : m = p.1
      · simp [h, List.append_assoc]
      · have : ¬ p.1 = m := fun h' => h h'.symm
        simp [h, this]

theorem mem_keysOf_foldl (ps : List (String × String)) :
    ∀ (t : List (String × List String)) (m : String),
      m ∈ keysOf (ps.foldl (fun t p => addTarget t p.1 p.2) t) ↔
        m ∈ keysOf t ∨ m ∈ ps.map Prod.fst := by
  induction ps with
  | nil => intro t m; simp
  | cons p ps ih =>
      intro t m
      simp only [List.foldl_cons, List.map_cons, List.mem_cons]
      rw [ih, keysOf_addTarget]
      by_cases hmem : p.1 ∈ keysOf t
      · simp only [hmem, if_true]
        constructor
        · rintro (h | h)
          · exact Or.inl h
          · exact Or.inr (Or.inr h)
        · rintro (h | h | h)
          · exact Or.inl h
          · exact Or.inl (h ▸ hmem)
          · exact Or.inr h
      · simp only [hmem, if_false, List.mem_append, List.mem_singleton]
        tauto


theorem nodup_keysOf_foldl (ps : List (String × String)) :
    ∀ (t : List (String × List String)), (keysOf t).Nodup →
      (keysOf (ps.foldl (fun t p => addTarget t p.1 p.2) t)).Nodup := by
  induction ps with
  | nil => intro t h; simpa using h
  | cons p ps ih =>
      intro t h
      simp only [List.foldl_cons]
      exact ih _ (nodup_keysOf_addTarget _ _ h)

theorem mem_iff_lookupT :
    ∀ (t : List (String × List String)), (keysOf t).Nodup →
      ∀ (m : String) (v : List String),
        ((m, v) ∈ t ↔ m ∈ keysOf t ∧ lookupT t m = v) := by
  intro t
  induction t with
  | nil => intro _ m v; simp [keysOf, lookupT]
  | cons hd rest ih =>
      obtain ⟨k, w⟩ := hd
      intro hnd m v
      have hnd' := List.nodup_cons.mp (show (k :: keysOf rest).Nodup from hnd)
      have hk : k ∉ keysOf rest := hnd'.1
      have hrest : (keysOf rest).Nodup := hnd'.2
      constructor
      · intro hmem
        rcases List.mem_cons.mp hmem with h | h
        · obtain ⟨h1, h2⟩ := Prod.mk.inj h
          subst h1; subst h2
          exact ⟨List.mem_cons_self _ _, by simp [lookupT]⟩
        · obtain ⟨h1, h2⟩ := (ih hrest m v).mp h
          have hkm : ¬ k = m := by
            intro he; subst he; exact hk h1
          exact ⟨List.mem_cons_of_mem _ h1, by simp [lookupT, hkm, h2]⟩
      · rintro ⟨h1, h2⟩
        by_cases hkm : k = m
        · subst hkm
          simp only [lookupT, if_pos rfl] at h2
          subst h2
          exact List.mem_cons_self _ _
        · have h1' : m ∈ keysOf rest := by
            rcases List.mem_cons.mp (show m ∈ k :: keysOf rest from h1) with h | h
            · exact absurd h.symm hkm
            · exact h
          simp only [lookupT, if_neg hkm] at h2
          exact List.mem_cons_of_mem _ ((ih hrest m v).mpr ⟨h1', h2⟩)

theorem lookupT_accumulate (ps : List (String × String)) (m : String) :
    lookupT (accumulate ps) m = rulesFor ps m := by
  simpa [lookupT] using lookupT_foldl ps [] m

theorem nodup_keysOf_accumulate (ps : List (String × String)) :
    (keysOf (accumulate ps)).Nodup :=
  nodup_keysOf_foldl ps [] (by simp [keysOf])

theorem mem_keysOf_accumulate (ps : List (String × String)) (m : String) :
    m ∈ keysOf (accumulate ps) ↔ m ∈ ps.map Prod.fst := by
  simpa [keysOf] using mem_keysOf_foldl ps [] m

/-- The implementation's parse result coincides with the specification's
description of it, for every raw input. -/
theorem parse_eq_parseSpec (output : String) :
    parse_query_output output = parseSpec output := by
  have ht_nodup := nodup_keysOf_accumulate (parsedPairs output)
  have hS_perm := List.perm_insertionSort keyLE (accumulate (parsedPairs output))
  have hS_sorted := List.sorted_insertionSort keyLE (accumulate (parsedPairs output))
  have hkeys_perm : List.Perm
      (keysOf ((accumulate (parsedPairs output)).insertionSort keyLE))
      (keysOf (accumulate (parsedPairs output))) := hS_perm.map Prod.fst
  have hkeys_sorted :
      List.Sorted strLE (keysOf ((accumulate (parsedPairs output)).insertionSort keyLE)) :=
    List.Pairwise.map Prod.fst (fun _ _ h => h) hS_sorted
  have hkeys_nodup :
      (keysOf ((accumulate (parsedPairs output)).insertionSort keyLE)).Nodup :=
    hkeys_perm.nodup_iff.mpr ht_nodup
  have hK_sorted : List.Sorted strLE (sortStrings ((parsedPairs output).map Prod.fst).dedup) :=
    List.sorted_insertionSort strLE _
  have hK_perm : List.Perm (sortStrings ((parsedPairs output).map Prod.fst).dedup)
      ((parsedPairs output).map Prod.fst).dedup := List.perm_insertionSort strLE _
  have hK_nodup : (sortStrings ((parsedPairs output).map Prod.fst).dedup).Nodup :=
    hK_perm.nodup_iff.mpr (List.nodup_dedup _)
  have hmemiff : ∀ m, m ∈ keysOf ((accumulate (parsedPairs output)).insertionSort keyLE) ↔
      m ∈ sortStrings ((parsedPairs output).map Prod.fst).dedup := by
    intro m
    rw [hkeys_perm.mem_iff, mem_keysOf_accumulate, hK_perm.mem_iff, List.mem_dedup]
  have hkeys_eq : keysOf ((accumulate (parsedPairs output)).insertionSort keyLE) =
      sortStrings ((parsedPairs output).map Prod.fst).dedup :=
    List.eq_of_perm_of_sorted
      ((List.perm_ext_iff_of_nodup hkeys_nodup hK_nodup).mpr hmemiff)
      hkeys_sorted hK_sorted
  have hvals : ∀ p ∈ (accumulate (parsedPairs output)).insertionSort keyLE,
      p.2 = rulesFor (parsedPairs output) p.1 := by
    rintro ⟨m, v⟩ hp
    have hp' : (m, v) ∈ accumulate (parsedPairs output) := hS_perm.subset hp
    have := (mem_iff_lookupT _ ht_nodup m v).mp hp'
    rw [← this.2, lookupT_accumulate]
  calc parse_query_output output
      = ((accumulate (parsedPairs output)).insertionSort keyLE).map
          (fun p => (p.1, sortStrings (rulesFor (parsedPairs output) p.1))) := by
        apply List.map_congr_left
        intro p hp
        rw [← hvals p hp]
    _ = (keysOf ((accumulate (parsedPairs output)).insertionSort keyLE)).map
          (fun m => (m, sortStrings (rulesFor (parsedPairs output) m))) := by
        rw [keysOf, List.map_map]; rfl
    _ = parseSpec output := by rw [hkeys_eq]; rfl

/-! ### Last-colon split characterization -/

theorem rsplitColon_none {l : List Char} (h : hasColon l = false) :
    rsplitColon l = none := by
  induction l with
  | nil => rfl
  | cons c rest ih =>
      simp only [hasColon, List.any_cons, Bool.or_eq_false_iff,
        decide_eq_false_iff_not] at h
      simp only [rsplitColon, ih (by simpa [hasColon] using h.2), if_neg h.1]

theorem hasColon_false_of_rsplitColon_none :
    ∀ {l : List Char}, rsplitColon l = none → hasColon l = false := by
  intro l
  induction l with
  | nil => intro _; rfl
  | cons c rest ih =>
      intro h
      simp only [rsplitColon] at h
      rcases hr : rsplitColon rest with _ | q
      · rw [hr] at h
        by_cases hc : c = ':'
        · simp [hc] at h
        · simp only [hasColon, List.any_cons, Bool.or_eq_false_iff,
            decide_eq_false_iff_not]
          exact ⟨hc, by simpa [hasColon] using ih hr⟩
      · rw [hr] at h
        obtain ⟨m, r⟩ := q
        simp at h

theorem rsplitColon_eq :
    ∀ {l m r : List Char}, rsplitColon l = some (m, r) →
      l = m ++ ':' :: r ∧ hasColon r = false := by
  intro l
  induction l with
  | nil => intro m r h; simp [rsplitColon] at h
  | cons c rest ih =>
      intro m r h
      simp only [rsplitColon] at h
      rcases hr : rsplitColon rest with _ | q
      · rw [hr] at h
        by_cases hc : c = ':'
        · subst hc
          rw [if_pos rfl, Option.some.injEq] at h
          obtain ⟨h1, h2⟩ := Prod.mk.inj h
          subst h1; subst h2
          exact ⟨rfl, hasColon_false_of_rsplitColon_none hr⟩
        · simp [hc] at h
      · obtain ⟨m', r'⟩ := q
        rw [hr] at h
        simp only [Option.some.injEq, Prod.mk.injEq] at h
        obtain ⟨h1, h2⟩ := h
        subst h1; subst h2
        obtain ⟨he, hcr⟩ := ih hr
        exact ⟨by rw [he]; rfl, hcr⟩

theorem rsplitColon_append (m r : List Char) (h : hasColon r = false) :
    rsplitColon (m ++ ':' :: r) = some (m, r) := by
  induction m with
  | nil => simp [rsplitColon, rsplitColon_none h]
  | cons c m' ih => simp [rsplitColon, ih]

/-- `parse_lines` keeps exactly the significant lines, split at the last
colon. -/
theorem parse_lines_eq_filterMap (ls : List (List Char)) :
    parse_lines ls = ls.filterMap (fun l =>
      if isSignificant (pyStrip l) then
        (rsplitColon (pyStrip l)).map (fun q => (String.mk q.1, String.mk q.2))
      else none) := by
  induction ls with
  | nil => rfl
  | cons l rest ih =>
      simp only [parse_lines, List.filterMap_cons]
      by_cases hs : isSignificant (pyStrip l)
      · rcases hr : rsplitColon (pyStrip l) with _ | q
        · simp [hs, hr, ih]
        · obtain ⟨m, r⟩ := q
          simp [hs, hr, ih]
      · simp [hs, ih]

/-- A line that starts with `"//"` and splits at a colon has a module
part that itself starts with `"//"`. -/
theorem take_two_of_startsWith :
    ∀ (m r : List Char), startsWithSlashes (m ++ ':' :: r) = true →
      m.take 2 = ['/', '/']
  | [], r, h => by
      cases r with
      | nil => simp [startsWithSlashes] at h
      | cons y ys => simp [startsWithSlashes] at h
  | [c], _, h => by simp [startsWithSlashes] at h
  | c1 :: c2 :: ms, r, h => by
      simp only [List.cons_append, startsWithSlashes, Bool.and_eq_true,
        decide_eq_true_eq] at h
      simp [h.1, h.2]

/-- Every parsed pair's namespace begins with `"//"`. -/
theorem fst_parse_lines :
    ∀ (ls : List (List Char)), ∀ p ∈ parse_lines ls, p.1.data.take 2 = ['/', '/'] := by
  intro ls
  induction ls with
  | nil => intro p hp; simp [parse_lines] at hp
  | cons l rest ih =>
      intro p hp
      simp only [parse_lines] at hp
      by_cases hs : isSignificant (pyStrip l)
      · rw [if_pos hs] at hp
        rcases hr : rsplitColon (pyStrip l) with _ | q
        · rw [hr] at hp; exact ih p hp
        · obtain ⟨m, r⟩ := q
          rw [hr] at hp
          rcases List.mem_cons.mp hp with h | h
          · subst h
            have hsl : startsWithSlashes (pyStrip l) = true := by
              simp only [isSignificant, Bool.and_eq_true] at hs
              exact hs.1.2
            obtain ⟨he, _⟩ := rsplitColon_eq hr
            rw [he] at hsl
            exact take_two_of_startsWith m r hsl
          · exact ih p h
      · rw [if_neg hs] at hp
        exact ih p hp

/-! ### Parse-result entry characterization -/

theorem parse_entry {output : String} {p : String × List String}
    (hp : p ∈ parse_query_output output) :
    p.1 ∈ (parsedPairs output).map Prod.fst ∧
      p.2 = sortStrings (rulesFor (parsedPairs output) p.1) := by
  rw [parse_eq_parseSpec] at hp
  unfold parseSpec at hp
  obtain ⟨m, hm, he⟩ := List.mem_map.mp hp
  subst he
  refine ⟨?_, rfl⟩
  have hmem : m ∈ ((parsedPairs output).map Prod.fst).dedup :=
    (List.perm_insertionSort strLE _).subset hm
  exact List.mem_dedup.mp hmem

theorem parse_value_ne_nil {output : String} {p : String × List String}
    (hp : p ∈ parse_query_output output) : p.2 ≠ [] := by
  obtain ⟨hmem, hval⟩ := parse_entry hp
  obtain ⟨q, hq, hq1⟩ := List.mem_map.mp hmem
  have hqmem : q.2 ∈ rulesFor (parsedPairs output) p.1 :=
    List.mem_filterMap.mpr ⟨q, hq, by simp [hq1]⟩
  intro hnil
  rw [hval] at hnil
  have hlen := (List.perm_insertionSort strLE
    (rulesFor (parsedPairs output) p.1)).length_eq
  rw [show List.insertionSort strLE (rulesFor (parsedPairs output) p.1) =
      sortStrings (rulesFor (parsedPairs output) p.1) from rfl, hnil] at hlen
  have := List.length_eq_zero.mp hlen.symm
  rw [this] at hqmem
  simp at hqmem

theorem parse_key_starts (output : String) {p : String × List String}
    (hp : p ∈ parse_query_output output) : p.1.data.take 2 = ['/', '/'] := by
  obtain ⟨hmem, _⟩ := parse_entry hp
  obtain ⟨q, hq, hq1⟩ := List.mem_map.mp hmem
  rw [← hq1]
  exact fst_parse_lines (splitlines output.data) q hq

/-! ### The fuzzy selector (`widgets/fuzzy_list.py`)

Python `str.lower()` applies Unicode simple lowercasing; `Char.toLower`
is its restriction to ASCII (code points above `z` are mapped to
themselves).  Both the embedded code and the specification-side predicate
use the same mapping, so every statement below is parametric in it. -/

/-- Python `str.lower()`, applied code point by code point. -/
def pyLowerStr (s : String) : String := String.mk (s.data.map Char.toLower)

/-- Python no-argument `str.split()`: maximal runs of non-whitespace. -/
def pyWordsAux : List Char → List Char → List (List Char)
  | [], acc => if acc.isEmpty then [] else [acc.reverse]
  | c :: rest, acc =>
      if pyIsSpace c then
        if acc.isEmpty then pyWordsAux rest [] else acc.reverse :: pyWordsAux rest []
      else pyWordsAux rest (c :: acc)

def pySplit (s : String) : List String := (pyWordsAux s.data []).map String.mk

/-- Python `needle in hay` on strings: `needle` occurs as a contiguous
substring of `hay`. -/
def isSubstr (needle : List Char) : List Char → Bool
  | [] => needle.isPrefixOf []
  | c :: t => needle.isPrefixOf (c :: t) || isSubstr needle t

def pyContains (needle hay : String) : Bool := isSubstr needle.data hay.data

/-- `fuzzy_filter` (fuzzy_list.py lines 9-14): keep the items that
contain every lowercased whitespace-separated token of the query. -/
def fuzzy_filter (query : String) (items : List String) : List String :=
  if (pyStrip query.data).isEmpty then items
  else items.filter (fun item =>
    (pySplit (pyLowerStr query)).all (fun t => pyContains t (pyLowerStr item)))

/-- The spec-side match predicate: the item case-insensitively contains
every whitespace-separated token of the filter text. -/
def matchesAllTokens (query item : String) : Bool :=
  (pySplit (pyLowerStr query)).all (fun t => pyContains t (pyLowerStr item))

/-- The state of the `FuzzyList` widget: source items, filter text,
cursor, and the derived filtered view. -/
structure FuzzyList where
  all_items : List String
  filter : String
  cursor : Nat
  filtered : List String

/-- `FuzzyList.__init__`: empty filter, cursor 0, filtered view a copy of
the source. -/
def FuzzyList.init (items : List String) : FuzzyList :=
  { all_items := items, filter := "", cursor := 0, filtered := items }

def FuzzyList.set_filter (fl : FuzzyList) (query : String) : FuzzyList :=
  { fl with filter := query,
            filtered := fuzzy_filter query fl.all_items,
            cursor := 0 }

def FuzzyList.move_up (fl : FuzzyList) : FuzzyList :=
  if 0 < fl.cursor then { fl with cursor := fl.cursor - 1 } else fl

/-- `move_down`: Python compares `cursor < len(filtered) - 1` over ℤ;
over ℕ the truncated subtraction gives the same branch for every
reachable state (`cursor ≥ 0`, and for `len = 0` both conditions are
false). -/
def FuzzyList.move_down (fl : FuzzyList) : FuzzyList :=
  if fl.cursor < fl.filtered.length - 1 then { fl with cursor := fl.cursor + 1 } else fl

def FuzzyList.update_items (fl : FuzzyList) (items : List String) : FuzzyList :=
  { fl with all_items := items,
            filtered := fuzzy_filter fl.filter items,
            cursor := 0 }

/-- The four state-changing operations a parent screen can drive. -/
inductive SelOp where
  | setF (query : String)
  | up
  | down
  | setSrc (items : List String)

def applyOp (fl : FuzzyList) : SelOp → FuzzyList
  | .setF q => fl.set_filter q
  | .up => fl.move_up
  | .down => fl.move_down
  | .setSrc its => fl.update_items its

def applyOps (fl : FuzzyList) (ops : List SelOp) : FuzzyList := ops.foldl applyOp fl

/-- The selector-state invariant: the cursor is within the filtered view
whenever it is non-empty, and pinned at 0 when it is empty. -/
def SelInv (fl : FuzzyList) : Prop :=
  (fl.filtered = [] → fl.cursor = 0) ∧
  (fl.filtered ≠ [] → fl.cursor < fl.filtered.length)

/-! ### The virtual-scroll viewport (`FuzzyList.render`, lines 112-117)

`render` draws rows `start ≤ i < stop` of the filtered list; the
computation below is its window arithmetic (Python `max(0, ·)` is ℕ
truncated subtraction). -/

def viewport (numItems cursor height : Nat) : Nat × Nat :=
  let half := height / 2
  let start := cursor - half
  let stop := min numItems (start + height)
  if stop - start < height then (stop - height, stop) else (start, stop)

/-- The contiguous slice of the filtered items that `render` displays. -/
def viewportSlice (items : List String) (cursor height : Nat) : List String :=
  (items.drop (viewport items.length cursor height).1).take
    ((viewport items.length cursor height).2 - (viewport items.length cursor height).1)

/-! ### The disk cache (`bazel.py`, lines 15-108)

The filesystem is modelled as seen through one derived cache path:
`dirExists` is the process-wide cache root (`~/.cache/bzl`), `file` the
content stored at `_cache_path(host, scope, kinds)` — `none` when no
file exists, `corrupt` when the bytes fail JSON deserialization or lack
the required fields (`json.loads` / key access raising, caught by the
`except` clause).  `_cache_path` calls `mkdir(parents=True,
exist_ok=True)` before returning the path, so deriving the path sets
`dirExists`.  The record also serializes `host`, `scope` and `kinds`,
which `load_cache` never reads back; JSON round-trips a string-keyed
dict of string lists losslessly, so the record stores the index itself.
Time is modelled in integer seconds. -/

def CACHE_VERSION : Int := 1

structure CacheEntry where
  targets : List (String × List String)
  timestamp : Int
deriving DecidableEq

inductive CacheFile where
  | corrupt
  | record (version : Int) (timestamp : Int) (targets : List (String × List String))
deriving DecidableEq

structure CacheFS where
  dirExists : Bool
  file : Option CacheFile
deriving DecidableEq

/-- `load_cache` (bazel.py lines 59-81): returns the entry when fresh,
`none` otherwise, together with the filesystem after the call (the
`ttl_seconds ≤ 0` early return precedes the path derivation, so only it
leaves the filesystem untouched).  Every deserialization failure is the
caught-exception branch, giving `none`. -/
def load_cache (fs : CacheFS) (ttl_seconds now : Int) :
    Option CacheEntry × CacheFS :=
  if ttl_seconds ≤ 0 then (none, fs)
  else
    match fs.file with
    | none => (none, { fs with dirExists := true })
    | some .corrupt => (none, { fs with dirExists := true })
    | some (.record v ts tg) =>
        if v ≠ CACHE_VERSION then (none, { fs with dirExists := true })
        else if now - ts > ttl_seconds then (none, { fs with dirExists := true })
        else (some ⟨tg, ts⟩, { fs with dirExists := true })

/-- `save_cache` (bazel.py lines 84-102): derive the path (creating the
cache root) and write a fresh record stamped with the current version
and time. -/
def save_cache (fs : CacheFS) (targets : List (String × List String))
    (now : Int) : CacheFS :=
  { dirExists := true, file := some (.record CACHE_VERSION now targets) }

/-- `bust_cache` (bazel.py lines 105-108): derive the path (creating the
cache root) and unlink the file, ignoring its absence. -/
def bust_cache (fs : CacheFS) : CacheFS :=
  { dirExists := true, file := none }

/-! ### Query command builders (`bazel.py query_local`, `ssh.py`) -/

/-- `"|".join(kinds) if len(kinds) > 1 else kinds[0]`.  (Python raises
`IndexError` on an empty list; the claims quantify over non-empty kind
lists, where the `headD` default is never taken.) -/
def kind_expr (kinds : List String) : String :=
  if 1 < kinds.length then String.intercalate "|" kinds
  else kinds.headD ""

/-- The argv built by `query_local` (bazel.py lines 113-116). -/
def query_local_cmd (scope : String) (kinds : List String) : List String :=
  ["bazel", "query", "kind(\x27" ++ kind_expr kinds ++ "\x27, " ++ scope ++ ")"]

/-- Python `shlex.quote`'s safe set: ASCII `\w` plus the punctuation
`@ % + = : , . / -` (everything else, including all non-ASCII,
triggers quoting). -/
def shlexSafeChar (c : Char) : Bool :=
  let v := c.toNat
  (97 ≤ v && v ≤ 122) || (65 ≤ v && v ≤ 90) || (48 ≤ v && v ≤ 57) ||
  c = '_' || c = '@' || c = '%' || c = '+' || c = '=' || c = ':' ||
  c = ',' || c = '.' || c = '/' || c = '-'

/-- `s.replace("'", "'\"'\"'")` from `shlex.quote`. -/
def shlexEscape : List Char → List Char
  | [] => []
  | c :: t =>
      (if c = '\x27' then ['\x27', '\x22', '\x27', '\x22', '\x27'] else [c]) ++
        shlexEscape t

/-- Python `shlex.quote`. -/
def shlex_quote (s : String) : String :=
  if s = "" then "\x27\x27"
  else if s.data.all shlexSafeChar then s
  else "\x27" ++ String.mk (shlexEscape s.data) ++ "\x27"

/-- `SSHConfig` (ssh.py): host and remote working directory. -/
structure SSHConfig where
  host : String
  remote_dir : String

/-- `SSHConfig.build_query_cmd` (ssh.py lines 38-45). -/
def SSHConfig.build_query_cmd (cfg : SSHConfig) (scope : String)
    (kinds : List String) : List String :=
  ["ssh", cfg.host,
   "cd " ++ shlex_quote cfg.remote_dir ++ " && bazel query \x22kind(\x27" ++
     kind_expr kinds ++ "\x27, " ++ scope ++ ")\x22"]

/-! ### Remaining helper lemmas -/

theorem keysOf_parse_sorted (output : String) :
    List.Sorted strLE (keysOf (parse_query_output output)) := by
  rw [parse_eq_parseSpec]
  unfold parseSpec keysOf
  rw [List.map_map]
  have h : (Prod.fst ∘ fun m => (m, sortStrings (rulesFor (parsedPairs output) m))) =
      id := rfl
  rw [h, List.map_id]
  exact List.sorted_insertionSort strLE _

theorem selInv_init (items : List String) : SelInv (FuzzyList.init items) := by
  constructor
  · intro _; rfl
  · intro h
    exact List.length_pos.mpr h

theorem selInv_applyOp {fl : FuzzyList} (op : SelOp) (h : SelInv fl) :
    SelInv (applyOp fl op) := by
  cases op with
  | setF q =>
      constructor
      · intro _; rfl
      · intro hne
        exact List.length_pos.mpr hne
  | setSrc its =>
      constructor
      · intro _; rfl
      · intro hne
        exact List.length_pos.mpr hne
  | up =>
      show SelInv fl.move_up
      unfold FuzzyList.move_up
      by_cases hc : 0 < fl.cursor
      · rw [if_pos hc]
        constructor
        · intro hemp
          have := h.1 hemp
          omega
        · intro hne
          have := h.2 hne
          simp only []
          omega
      · rw [if_neg hc]
        exact h
  | down =>
      show SelInv fl.move_down
      unfold FuzzyList.move_down
      by_cases hc : fl.cursor < fl.filtered.length - 1
      · rw [if_pos hc]
        constructor
        · intro hemp
          rw [hemp] at hc
          simp at hc
        · intro _
          simp only []
          omega
      · rw [if_neg hc]
        exact h

theorem selInv_applyOps :
    ∀ (ops : List SelOp) (fl : FuzzyList), SelInv fl → SelInv (applyOps fl ops) := by
  intro ops
  induction ops with
  | nil => intro fl h; exact h
  | cons op rest ih =>
      intro fl h
      exact ih _ (selInv_applyOp op h)

theorem viewport_eq (n cursor height : Nat) (hh : 1 ≤ height) (hc : cursor < n) :
    viewport n cursor height =
      (min (cursor - height / 2) (n - height),
       min n (min (cursor - height / 2) (n - height) + height)) := by
  unfold viewport
  dsimp only
  split_ifs with hcase <;> simp only [Prod.mk.injEq] <;> constructor <;> omega

theorem viewportSlice_full (items : List String) (cursor height : Nat)
    (hh : 1 ≤ height) (hc : cursor < items.length)
    (hnh : items.length ≤ height) : viewportSlice items cursor height = items := by
  unfold viewportSlice
  rw [viewport_eq items.length cursor height hh hc]
  dsimp only
  have h1 : min (cursor - height / 2) (items.length - height) = 0 := by omega
  rw [h1]
  have h2 : min items.length (0 + height) = items.length := by omega
  rw [h2]
  simp

/-! ### Claim theorems -/

/-- C1: for every raw text, `parse_query_output` equals the
specification-side description (`parseSpec`: group the kept lines by
namespace, namespaces and items emitted in lexical order); the kept
lines are exactly those that — after stripping — are non-empty, begin
with `//` and contain `':'`; each kept line is split at its LAST `':'`
(characterized in both directions); namespaces of the result are in
lexical order; and the concrete example parses as stated.  Totality of
the Lean functions embeds "the parser never raises". -/
theorem parse_query_output_spec :
    (∀ output : String, parse_query_output output = parseSpec output) ∧
    (∀ ls : List (List Char), parse_lines ls = ls.filterMap (fun l =>
        if isSignificant (pyStrip l) then
          (rsplitColon (pyStrip l)).map (fun q => (String.mk q.1, String.mk q.2))
        else none)) ∧
    (∀ m r : List Char, hasColon r = false →
        rsplitColon (m ++ ':' :: r) = some (m, r)) ∧
    (∀ l m r : List Char, rsplitColon l = some (m, r) →
        l = m ++ ':' :: r ∧ hasColon r = false) ∧
    (∀ output : String, List.Sorted strLE (keysOf (parse_query_output output))) ∧
    (∀ output : String, ∀ p ∈ parse_query_output output, List.Sorted strLE p.2) ∧
    parse_query_output "//a/b:x\n//a/b:y\n# comment\n//c:z\n" =
      [("//a/b", ["x", "y"]), ("//c", ["z"])] := by
  refine ⟨parse_eq_parseSpec, parse_lines_eq_filterMap, rsplitColon_append,
    fun _ _ _ => rsplitColon_eq, keysOf_parse_sorted, ?_, by decide⟩
  intro output p hp
  rw [(parse_entry hp).2]
  exact List.sorted_insertionSort strLE _

theorem parse_query_output_spec_witness :
    rsplitColon (['/', '/', 'a'] ++ ':' :: ['x']) = some (['/', '/', 'a'], ['x']) ∧
    List.Sorted strLE (("//a", ["x", "y"]) : String × List String).2 := by
  constructor
  · exact parse_query_output_spec.2.2.1 ['/', '/', 'a'] ['x'] (by decide)
  · exact parse_query_output_spec.2.2.2.2.2.1 "//a:y\n//a:x" ("//a", ["x", "y"])
      (by decide)

/-- C2: `set_filter` makes the filtered view exactly the subsequence of
the source items that case-insensitively contain every
whitespace-separated token of the filter text (AND across tokens, source
order preserved); empty or all-whitespace text yields the full source
list. -/
theorem set_filter_spec :
    ∀ (fl : FuzzyList) (q : String),
      ((pyStrip q.data).isEmpty = false →
        (fl.set_filter q).filtered = fl.all_items.filter (matchesAllTokens q)) ∧
      List.Sublist (fl.set_filter q).filtered fl.all_items ∧
      ((pyStrip q.data).isEmpty = true →
        (fl.set_filter q).filtered = fl.all_items) := by
  intro fl q
  refine ⟨?_, ?_, ?_⟩
  · intro h
    show fuzzy_filter q fl.all_items = _
    unfold fuzzy_filter
    rw [if_neg (by simp [h])]
    rfl
  · by_cases h : (pyStrip q.data).isEmpty
    · simp [FuzzyList.set_filter, fuzzy_filter, h]
    · simp only [FuzzyList.set_filter, fuzzy_filter, h, Bool.false_eq_true, if_false]
      exact List.filter_sublist _
  · intro h
    simp [FuzzyList.set_filter, fuzzy_filter, h]

theorem set_filter_spec_witness :
    ((FuzzyList.init ["Alpha_target", "beta", "alpha_other"]).set_filter
        "alpha").filtered = ["Alpha_target", "alpha_other"] := by
  have h := (set_filter_spec (FuzzyList.init ["Alpha_target", "beta", "alpha_other"])
    "alpha").1 (by decide)
  rw [h]; decide

/-- C3: `load_cache` returns absent exactly when the caller opted out
(`ttl ≤ 0`), no record exists, the record is corrupt (any
deserialization failure — modelled by `CacheFile.corrupt` — is a miss,
and the Lean function is total, never an error), the format version
mismatches, or the record is older than the ttl; and the scenario: a
record written at t=0 with ttl=60 is returned at t=59 and absent at
t=61. -/
theorem load_cache_miss_iff :
    ∀ (fs : CacheFS) (ttl now : Int),
      ((load_cache fs ttl now).1 = none ↔
        ttl ≤ 0 ∨ fs.file = none ∨ fs.file = some CacheFile.corrupt ∨
          (∃ v ts tg, fs.file = some (CacheFile.record v ts tg) ∧
            (v ≠ CACHE_VERSION ∨ now - ts > ttl))) ∧
      (∀ tg : List (String × List String),
        (load_cache ⟨true, some (CacheFile.record 1 0 tg)⟩ 60 59).1 =
          some ⟨tg, 0⟩ ∧
        (load_cache ⟨true, some (CacheFile.record 1 0 tg)⟩ 60 61).1 = none) := by
  intro fs ttl now
  constructor
  · by_cases httl : ttl ≤ 0
    · simp [load_cache, httl]
    · rcases fs with ⟨d, file⟩
      rcases file with _ | cf
      · simp [load_cache, httl]
      · rcases cf with _ | ⟨v, ts, tg⟩
        · simp [load_cache, httl]
        · by_cases hv : v = CACHE_VERSION
          · by_cases hage : now - ts > ttl
            · simp only [load_cache, if_neg httl]
              subst hv
              rw [if_neg (by simp), if_pos hage]
              simp only [true_iff]
              refine Or.inr (Or.inr (Or.inr ⟨CACHE_VERSION, ts, tg, rfl, Or.inr hage⟩))
            · simp only [load_cache, if_neg httl]
              subst hv
              rw [if_neg (by simp), if_neg hage]
              simp only [Option.some_ne_none, false_iff]
              push_neg
              refine ⟨by omega, by simp, by simp, ?_⟩
              intro v' ts' tg' he
              obtain ⟨h1, h2, h3⟩ := CacheFile.record.inj (Option.some.inj he)
              subst h1; subst h2
              exact ⟨by simp, by omega⟩
          · simp only [load_cache, if_neg httl]
            rw [if_pos hv]
            simp only [true_iff]
            exact Or.inr (Or.inr (Or.inr ⟨v, ts, tg, rfl, Or.inl hv⟩))
  · intro tg
    constructor
    · have h1 : ¬ (60 : Int) ≤ 0 := by omega
      have h2 : ¬ (59 : Int) - 0 > 60 := by omega
      simp [load_cache, h1, h2, CACHE_VERSION]
    · have h1 : ¬ (60 : Int) ≤ 0 := by omega
      have h2 : (61 : Int) - 0 > 60 := by omega
      simp [load_cache, h1, h2, CACHE_VERSION]

/-- C4: after any sequence of operations from a freshly constructed
widget, the cursor is inside the filtered view whenever it is non-empty;
`set_filter` and `update_items` reset the cursor to 0; `move_up` /
`move_down` move the cursor by exactly one position, leaving the
filtered view unchanged, with no wraparound and a no-op at either
boundary. -/
theorem selector_state_spec :
    (∀ (items : List String) (ops : List SelOp),
        (applyOps (FuzzyList.init items) ops).filtered ≠ [] →
        (applyOps (FuzzyList.init items) ops).cursor <
          (applyOps (FuzzyList.init items) ops).filtered.length) ∧
    (∀ (fl : FuzzyList) (q : String), (fl.set_filter q).cursor = 0) ∧
    (∀ (fl : FuzzyList) (its : List String), (fl.update_items its).cursor = 0) ∧
    (∀ fl : FuzzyList, fl.cursor = 0 → fl.move_up = fl) ∧
    (∀ fl : FuzzyList, 0 < fl.cursor →
        fl.move_up.cursor = fl.cursor - 1 ∧ fl.move_up.filtered = fl.filtered) ∧
    (∀ fl : FuzzyList, fl.filtered.length ≤ fl.cursor + 1 → fl.move_down = fl) ∧
    (∀ fl : FuzzyList, fl.cursor + 1 < fl.filtered.length →
        fl.move_down.cursor = fl.cursor + 1 ∧ fl.move_down.filtered = fl.filtered) := by
  refine ⟨?_, fun _ _ => rfl, fun _ _ => rfl, ?_, ?_, ?_, ?_⟩
  · intro items ops
    exact (selInv_applyOps ops _ (selInv_init items)).2
  · intro fl h
    unfold FuzzyList.move_up
    rw [if_neg (by omega)]
  · intro fl h
    unfold FuzzyList.move_up
    rw [if_pos h]
    exact ⟨rfl, rfl⟩
  · intro fl h
    unfold FuzzyList.move_down
    rw [if_neg (by omega)]
  · intro fl h
    unfold FuzzyList.move_down
    rw [if_pos (by omega)]
    exact ⟨rfl, rfl⟩

theorem selector_state_spec_witness :
    (applyOps (FuzzyList.init ["alpha_target", "beta_target", "alpha_other"])
        [SelOp.setF "alpha", SelOp.down, SelOp.down]).cursor <
      (applyOps (FuzzyList.init ["alpha_target", "beta_target", "alpha_other"])
        [SelOp.setF "alpha", SelOp.down, SelOp.down]).filtered.length := by
  exact selector_state_spec.1 ["alpha_target", "beta_target", "alpha_other"]
    [SelOp.setF "alpha", SelOp.down, SelOp.down] (by decide)

/-- C5: for every filtered length `n`, cursor within the invariant
(`cursor < n`) and height ≥ 1 (render clamps `height = max 1 size.height`),
the window is the contiguous slice `[start, stop)` with
`start = min (cursor - height/2) (n - height)` (the centred target,
clamped at both ends, over ℕ truncated subtraction), `stop = min n
(start + height)`; it spans at most `height` rows, stays inside
`[0, n)`, is the whole list when `n ≤ height`, and — being a pure
function of `(n, cursor, height)` — is deterministic. -/
theorem viewport_spec :
    ∀ (n cursor height : Nat), 1 ≤ height → cursor < n →
      (viewport n cursor height).1 = min (cursor - height / 2) (n - height) ∧
      (viewport n cursor height).2 = min n ((viewport n cursor height).1 + height) ∧
      (viewport n cursor height).1 ≤ (viewport n cursor height).2 ∧
      (viewport n cursor height).2 ≤ n ∧
      (viewport n cursor height).2 - (viewport n cursor height).1 ≤ height ∧
      (n ≤ height → (viewport n cursor height).1 = 0 ∧ (viewport n cursor height).2 = n) ∧
      (∀ i, (viewport n cursor height).1 ≤ i → i < (viewport n cursor height).2 → i < n) ∧
      (∀ items : List String, items.length = n → n ≤ height →
        viewportSlice items cursor height = items) := by
  intro n cursor height hh hc
  rw [viewport_eq n cursor height hh hc]
  refine ⟨rfl, rfl, by omega, by omega, by omega, by omega, by omega, ?_⟩
  intro items hn hnh
  subst hn
  exact viewportSlice_full items cursor height hh hc hnh

theorem viewport_spec_witness :
    (viewport 5 2 3).2 ≤ 5 ∧ viewportSlice ["a", "b", "c"] 1 4 = ["a", "b", "c"] := by
  constructor
  · exact (viewport_spec 5 2 3 (by decide) (by decide)).2.2.2.1
  · exact (viewport_spec 3 1 4 (by decide) (by decide)).2.2.2.2.2.2.2
      ["a", "b", "c"] (by decide) (by decide)

/-- C6 counterexample: the input `"//a:"` is kept (non-empty, starts
with `//`, contains `':'`) and parses to an entry whose single item is
the empty string, so "every item string is non-empty" is false. -/
theorem parse_empty_item_counterexample :
    ¬ (∀ p ∈ parse_query_output "//a:", ∀ item ∈ p.2, item ≠ "") := by decide

/-- C6 (amended): no namespace maps to an empty sequence and every
namespace key is non-empty (it begins with `//`); item strings, however,
can be empty (a kept line ending in `':'` contributes one). -/
theorem parse_no_empty_namespace :
    ∀ (output : String), ∀ p ∈ parse_query_output output, p.2 ≠ [] ∧ p.1 ≠ "" := by
  intro output p hp
  refine ⟨parse_value_ne_nil hp, ?_⟩
  intro h
  have hk := parse_key_starts output hp
  rw [h] at hk
  exact absurd hk (by decide)

theorem parse_no_empty_namespace_witness :
    (("//a", ["x"]) : String × List String).2 ≠ [] ∧
      (("//a", ["x"]) : String × List String).1 ≠ "" :=
  parse_no_empty_namespace "//a:x" ("//a", ["x"]) (by decide)

/-- C7 counterexample: the input repeating the line `//a:x` parses to
`{"//a": ["x", "x"]}` — the item list retains the duplicate, so "the
list is deduplicated" is false. -/
theorem parse_duplicates_counterexample :
    ¬ (∀ p ∈ parse_query_output "//a:x\n//a:x", p.2.Nodup) := by decide

/-- C7 (amended): each namespace's item list is sorted lexically and is
a permutation of the multiset of items accumulated for that namespace —
one entry per occurrence among the kept lines, with duplicates retained
(no deduplication). -/
theorem parse_values_sorted_with_duplicates :
    ∀ (output : String), ∀ p ∈ parse_query_output output,
      List.Sorted strLE p.2 ∧
        List.Perm p.2 (rulesFor (parsedPairs output) p.1) := by
  intro output p hp
  obtain ⟨_, hval⟩ := parse_entry hp
  constructor
  · rw [hval]
    exact List.sorted_insertionSort strLE _
  · rw [hval]
    exact List.perm_insertionSort strLE _

theorem parse_values_sorted_with_duplicates_witness :
    List.Sorted strLE (("//a", ["x", "x"]) : String × List String).2 ∧
      List.Perm (("//a", ["x", "x"]) : String × List String).2
        (rulesFor (parsedPairs "//a:x\n//a:x") ("//a", ["x", "x"]).1) :=
  parse_values_sorted_with_duplicates "//a:x\n//a:x" ("//a", ["x", "x"]) (by decide)

/-- C8: a `save_cache` followed by a `load_cache` under a ttl at least
as large as the elapsed time, with no intervening mutation, returns an
entry whose targets index equals what was written. -/
theorem save_load_roundtrip :
    ∀ (fs : CacheFS) (tg : List (String × List String)) (now ttl later : Int),
      0 < ttl → later - now ≤ ttl →
      ∃ e : CacheEntry,
        (load_cache (save_cache fs tg now) ttl later).1 = some e ∧ e.targets = tg := by
  intro fs tg now ttl later h1 h2
  refine ⟨⟨tg, now⟩, ?_, rfl⟩
  have httl : ¬ ttl ≤ 0 := by omega
  have hage : ¬ later - now > ttl := by omega
  simp [load_cache, save_cache, httl, hage, CACHE_VERSION]

theorem save_load_roundtrip_witness :
    ∃ e : CacheEntry,
      (load_cache (save_cache ⟨false, none⟩ [("//a", ["x"])] 0) 60 59).1 = some e ∧
        e.targets = [("//a", ["x"])] :=
  save_load_roundtrip ⟨false, none⟩ [("//a", ["x"])] 0 60 59 (by decide) (by decide)

/-- C9: for a non-empty kind list, the local builder produces exactly
`["bazel", "query", "kind(<expr>, <scope>)"]` and the remote builder
exactly `["ssh", host, "cd <quoted-dir> && bazel query \"kind(<expr>,
<scope>)\""]`, where the expression joins the kinds with `|` exactly when
more than one is given and is the single bare kind otherwise. -/
theorem query_cmd_spec :
    ∀ (scope host dir : String) (kinds : List String), kinds ≠ [] →
      (query_local_cmd scope kinds =
        ["bazel", "query",
         "kind(\x27" ++ kind_expr kinds ++ "\x27, " ++ scope ++ ")"]) ∧
      (SSHConfig.build_query_cmd ⟨host, dir⟩ scope kinds =
        ["ssh", host,
         "cd " ++ shlex_quote dir ++ " && bazel query \x22kind(\x27" ++
           kind_expr kinds ++ "\x27, " ++ scope ++ ")\x22"]) ∧
      (∀ k : String, kinds = [k] → kind_expr kinds = k) ∧
      (1 < kinds.length → kind_expr kinds = String.intercalate "|" kinds) := by
  intro scope host dir kinds _
  refine ⟨rfl, rfl, ?_, ?_⟩
  · intro k hk
    subst hk
    simp [kind_expr]
  · intro h
    simp [kind_expr, h]

theorem query_cmd_spec_witness :
    kind_expr ["go_binary"] = "go_binary" ∧
      kind_expr ["a", "b"] = String.intercalate "|" ["a", "b"] := by
  constructor
  · exact (query_cmd_spec "s" "h" "d" ["go_binary"] (by decide)).2.2.1 "go_binary" rfl
  · exact (query_cmd_spec "s" "h" "d" ["a", "b"] (by decide)).2.2.2 (by decide)

/-- C10 counterexample: a `load_cache` read (ttl = 1) and a `bust_cache`
invalidate performed while the cache root directory is absent both
create it (`_cache_path` mkdirs on every path derivation), so "only
write operations create it" is false. -/
theorem cache_dir_read_creates_counterexample :
    (load_cache ⟨false, none⟩ 1 0).2.dirExists = true ∧
    (bust_cache ⟨false, none⟩).dirExists = true := by decide

/-- C10 (amended): the cache root directory is created by any operation
that derives the cache path — a read with ttl > 0, a write, and an
invalidate all create it; only a read with ttl ≤ 0 (which returns
before deriving the path) leaves the filesystem untouched. -/
theorem cache_dir_creation :
    ∀ (fs : CacheFS) (ttl now : Int) (tg : List (String × List String)),
      (0 < ttl → (load_cache fs ttl now).2.dirExists = true) ∧
      (ttl ≤ 0 → (load_cache fs ttl now).2 = fs) ∧
      (save_cache fs tg now).dirExists = true ∧
      (bust_cache fs).dirExists = true := by
  intro fs ttl now tg
  refine ⟨?_, ?_, rfl, rfl⟩
  · intro h
    have httl : ¬ ttl ≤ 0 := by omega
    rcases fs with ⟨d, file⟩
    rcases file with _ | cf
    · simp [load_cache, httl]
    · rcases cf with _ | ⟨v, ts, tg'⟩
      · simp [load_cache, httl]
      · simp only [load_cache, if_neg httl]
        split_ifs <;> rfl
  · intro h
    simp [load_cache, h]

theorem cache_dir_creation_witness :
    (load_cache ⟨false, some CacheFile.corrupt⟩ 5 0).2.dirExists = true :=
  (cache_dir_creation ⟨false, some CacheFile.corrupt⟩ 5 0 []).1 (by decide)

end Bzl
